import Mathlib

/-!
Verification development for the agri-policy classifier (`src/app.py`).

Texts are modelled as `List Char`.  Python string primitives (`str.strip`,
`str.split`, `str.splitlines`, `''.join`, regular-expression matching for the
fixed patterns appearing in the source) are embedded as executable Lean
functions; the digit-ratio comparison `ratio > 0.4` is embedded exactly over
`ℚ` (for the integer sizes arising here the float comparison in CPython agrees
with the exact rational comparison).  Character classes follow CPython's
definitions restricted to the Unicode whitespace table that `str.isspace`
and the regex class match; word characters are the ASCII `[A-Za-z0-9_]`.
-/

set_option maxRecDepth 8000

namespace AefPolicy

/-- Characters accepted by Python's `str.isspace` (the same set that the
regex class for whitespace matches for `str` patterns in CPython). -/
def isPySpace (c : Char) : Bool :=
  decide (c.toNat = 32) || (decide (9 ≤ c.toNat) && decide (c.toNat ≤ 13)) ||
  (decide (28 ≤ c.toNat) && decide (c.toNat ≤ 31)) || decide (c.toNat = 133) ||
  decide (c.toNat = 160) || decide (c.toNat = 0x1680) ||
  (decide (0x2000 ≤ c.toNat) && decide (c.toNat ≤ 0x200a)) ||
  decide (c.toNat = 0x2028) || decide (c.toNat = 0x2029) ||
  decide (c.toNat = 0x202f) || decide (c.toNat = 0x205f) || decide (c.toNat = 0x3000)

/-- ASCII word characters, the class `[A-Za-z0-9_]` used by the word-boundary
assertions in the source's regular expressions. -/
def isWordChar (c : Char) : Bool :=
  c.isAlphanum || c == '_'

/-- Word-boundary test against an optional neighbouring character: the
boundary holds when the neighbour is absent or not a word character. -/
def boundaryOk (oc : Option Char) : Bool :=
  match oc with
  | none => true
  | some c => !isWordChar c

/-- Characters of Python's `string.printable` (ASCII 32–126 plus the
whitespace characters TAB, LF, VT, FF, CR). -/
def isPrintable (c : Char) : Bool :=
  (decide (32 ≤ c.toNat) && decide (c.toNat ≤ 126)) ||
  (decide (9 ≤ c.toNat) && decide (c.toNat ≤ 13))

/-- Embedding of `clean_text` (app.py line 33-34): keep only characters of
`string.printable`. -/
def clean_text (t : List Char) : List Char :=
  t.filter isPrintable

/-- Embedding of Python `str.strip()`: drop whitespace from both ends. -/
def strip (t : List Char) : List Char :=
  ((t.dropWhile isPySpace).reverse.dropWhile isPySpace).reverse

/-- Embedding of Python `str.strip(chars)`: drop characters of `cs` from
both ends (used for `subs.strip("[]")` in app.py line 138). -/
def stripChars (cs : List Char) (t : List Char) : List Char :=
  ((t.dropWhile (cs.contains ·)).reverse.dropWhile (cs.contains ·)).reverse

/-- Substring containment, Python's `"Table" in text` (app.py line 38). -/
def containsSub (sep : List Char) : List Char → Bool
  | [] => sep.isEmpty
  | c :: rest => sep.isPrefixOf (c :: rest) || containsSub sep rest

/-- Worker for Python `str.split(sep)` with a non-empty separator: scan left
to right, cutting at each (non-overlapping) occurrence.  A positive `skip`
records how many already-matched separator characters remain to be
consumed, keeping the recursion structural. -/
def splitOnSubAux (sep : List Char) : Nat → List Char → List Char → List (List Char)
  | 0, acc, [] => [acc.reverse]
  | _ + 1, acc, [] => [acc.reverse]
  | skip + 1, acc, _ :: rest => splitOnSubAux sep skip acc rest
  | 0, acc, c :: rest =>
    if sep.isPrefixOf (c :: rest) then
      acc.reverse :: splitOnSubAux sep (sep.length - 1) [] rest
    else
      splitOnSubAux sep 0 (c :: acc) rest

/-- Embedding of Python `str.split(sep)` for a fixed separator.  (Python
raises on an empty separator; the sources below only use non-empty ones.) -/
def pySplit (sep : List Char) (t : List Char) : List (List Char) :=
  match sep with
  | [] => [t]
  | _ :: _ => splitOnSubAux sep 0 [] t

/-- Number of words of a chunk, Python's `len(para.split())`
(app.py line 73): the number of maximal runs of non-whitespace characters.
The flag records whether the previous character belonged to a word. -/
def wordCountAux : Bool → List Char → Nat
  | _, [] => 0
  | inWord, c :: rest =>
    if isPySpace c then wordCountAux false rest
    else (if inWord then 0 else 1) + wordCountAux true rest

/-- Word count of a chunk. -/
def wordCount (t : List Char) : Nat :=
  wordCountAux false t

/-- Number of maximal runs of decimal digits in a line, the length of
`re.findall` over the digit-run pattern (app.py line 40).  The flag records
whether the previous character was a digit. -/
def numRunsAux : Bool → List Char → Nat
  | _, [] => 0
  | inRun, c :: rest =>
    if c.isDigit then (if inRun then 0 else 1) + numRunsAux true rest
    else numRunsAux false rest

/-- Count of maximal digit runs in a line. -/
def numRuns (t : List Char) : Nat :=
  numRunsAux false t

/-- Number of digit characters of a text (`sum(c.isdigit() for c in text)`,
app.py line 41). -/
def countDigits (t : List Char) : Nat :=
  (t.filter Char.isDigit).length

/-- Digit ratio of `is_probable_table` (app.py line 41):
`sum(c.isdigit() for c in text) / max(1, len(text))`, as an exact rational. -/
def num_ratio (t : List Char) : ℚ :=
  (countDigits t : ℚ) / ((max 1 t.length : ℕ) : ℚ)

/-- Exact integer form of the comparison `num_ratio t > 0.4` (cross
multiplication by the positive denominators; for the integer sizes arising
here CPython's float comparison agrees with the exact one).  The theorem
`ratioExceeds_iff` relates it to `num_ratio`. -/
def ratioExceeds (t : List Char) : Bool :=
  decide (2 * max 1 t.length < 5 * countDigits t)

/-- Embedding of `is_probable_table` (app.py lines 36–42): a chunk is a
probable table if it contains the substring `Table` or `Figure`, or at least
2 of its newline-separated lines have more than 3 digit runs, or its digit
ratio exceeds 0.4. -/
def is_probable_table (text : List Char) : Bool :=
  if containsSub "Table".toList text || containsSub "Figure".toList text then true
  else
    let lines := pySplit ['\n'] text
    let numericLines := (lines.filter (fun line => decide (3 < numRuns line))).length
    decide (2 ≤ numericLines) || ratioExceeds text

/-- One-or-more digits (regex `\d+` at the cursor): requires a leading digit
and consumes the maximal digit run. -/
def matchDigits1 : List Char → Option (List Char)
  | [] => none
  | c :: rest => if c.isDigit then some (rest.dropWhile Char.isDigit) else none

/-- Optional punctuation (regex `[.)]?` in the heading patterns). -/
def matchOptPunct (t : List Char) : List Char :=
  match t with
  | c :: rest => if c = '.' || c = ')' then rest else t
  | [] => t

/-- One-or-more whitespace characters followed by maximal skip: regex `\s+`
before a non-whitespace continuation. -/
def matchSpaces1 : List Char → Option (List Char)
  | [] => none
  | c :: rest => if isPySpace c then some (rest.dropWhile isPySpace) else none

/-- Case-sensitive literal match, returning the rest of the input. -/
def matchLit : List Char → List Char → Option (List Char)
  | [], t => some t
  | _ :: _, [] => none
  | p :: ps, c :: cs => if c = p then matchLit ps cs else none

/-- Case-insensitive literal match (regex IGNORECASE on ASCII), returning
the rest of the input. -/
def matchCI : List Char → List Char → Option (List Char)
  | [], t => some t
  | _ :: _, [] => none
  | p :: ps, c :: cs => if c.toLower = p.toLower then matchCI ps cs else none

/-- Embedding of `is_section_heading` (app.py lines 52–53): the stripped line
matches `\s*`, one or more digits, optional `.`/`)`, whitespace, a capital
letter, then at least three further non-newline characters. -/
def is_section_heading (t : List Char) : Bool :=
  let s := (strip t).dropWhile isPySpace
  match matchDigits1 s with
  | none => false
  | some r1 =>
    match matchSpaces1 (matchOptPunct r1) with
    | none => false
    | some r2 =>
      match r2 with
      | [] => false
      | c :: r3 =>
        decide ('A' ≤ c) && decide (c ≤ 'Z') &&
        decide (3 ≤ r3.length) && (r3.take 3).all (fun d => d != '\n')

/-- First alternative of the chunk inclusion rule (app.py line 73):
`re.match` of digits, optional `.`/`)`, whitespace, then a capital letter. -/
def matchesNumHeading (t : List Char) : Bool :=
  match matchDigits1 t with
  | none => false
  | some r1 =>
    match matchSpaces1 (matchOptPunct r1) with
    | none => false
    | some r2 =>
      match r2 with
      | [] => false
      | c :: _ => decide ('A' ≤ c) && decide (c ≤ 'Z')

/-- Chunk inclusion alternative `re.match` of a literal word, whitespace,
then a digit — used for both `Figure \d+` and `Table \d+` prefixes. -/
def matchesWordNum (word : List Char) (t : List Char) : Bool :=
  match matchLit word t with
  | none => false
  | some r1 =>
    match matchSpaces1 r1 with
    | none => false
    | some r2 =>
      match r2 with
      | [] => false
      | c :: _ => c.isDigit

/-- Chunk starts with `Figure <number>` (app.py line 73). -/
def matchesFigureHeading (t : List Char) : Bool :=
  matchesWordNum "Figure".toList t

/-- Chunk starts with `Table <number>` (app.py line 73). -/
def matchesTableHeading (t : List Char) : Bool :=
  matchesWordNum "Table".toList t

/-- Inclusion rule for a cleaned chunk (app.py line 73): numbered heading, or
`Figure n`/`Table n` prefix, or word count between 40 and 1000. -/
def inclusionRule (para : List Char) : Bool :=
  matchesNumHeading para || matchesFigureHeading para || matchesTableHeading para ||
  (decide (40 ≤ wordCount para) && decide (wordCount para ≤ 1000))

/-- Per-chunk filter of the segmenter (app.py lines 72–73): the cleaned chunk
is kept when it is non-empty, not a probable table, and matches the
inclusion rule. -/
def chunkKept (para : List Char) : Bool :=
  !para.isEmpty && !is_probable_table para && inclusionRule para

/-- Line-boundary characters of Python `str.splitlines`. -/
def isLineBoundary (c : Char) : Bool :=
  c == '\n' || c == '\r' || decide (c.toNat = 11) || decide (c.toNat = 12) ||
  decide (c.toNat = 28) || decide (c.toNat = 29) || decide (c.toNat = 30) ||
  decide (c.toNat = 133) || decide (c.toNat = 0x2028) || decide (c.toNat = 0x2029)

/-- Worker for Python `str.splitlines`: split at line boundaries (`\r\n`
counting as one), with no trailing empty line. -/
def splitlinesAux (acc : List Char) : List Char → List (List Char)
  | [] => if acc.isEmpty then [] else [acc.reverse]
  | '\r' :: '\n' :: rest => acc.reverse :: splitlinesAux [] rest
  | c :: rest =>
    if isLineBoundary c then acc.reverse :: splitlinesAux [] rest
    else splitlinesAux (c :: acc) rest

/-- Embedding of Python `str.splitlines()` (app.py line 61). -/
def splitlines (t : List Char) : List (List Char) :=
  splitlinesAux [] t

/-- Keyword alternatives of the first start marker. -/
def startKeywords : List (List Char) :=
  ["Introduction", "Executive Summary", "Context", "Overview", "Background",
   "Preamble"].map String.toList

/-- First start-marker pattern at a line-start position: `\s*`, `1`/`I`/`i`,
optional dot, `\s*`, one of the keywords, then a word boundary
(app.py line 45, matched with IGNORECASE and MULTILINE). -/
def marker1At (s : List Char) : Bool :=
  match s.dropWhile isPySpace with
  | [] => false
  | c :: rest =>
    if c = '1' || c.toLower = 'i' then
      let rest1 := match rest with
        | '.' :: r => r
        | _ => rest
      let s2 := rest1.dropWhile isPySpace
      startKeywords.any fun kw =>
        match matchCI kw s2 with
        | some r => boundaryOk r.head?
        | none => false
    else false

/-- Second start-marker pattern at a line-start position:
`\s*(Chapter|Section)\s+(1|I|i)\b` (app.py line 46). -/
def marker2At (s : List Char) : Bool :=
  let s1 := s.dropWhile isPySpace
  let afterWord :=
    match matchCI "Chapter".toList s1 with
    | some r => some r
    | none => matchCI "Section".toList s1
  match afterWord with
  | none => false
  | some r =>
    match matchSpaces1 r with
    | none => false
    | some s2 =>
      match s2 with
      | [] => false
      | d :: rest2 => (d = '1' || d.toLower = 'i') && boundaryOk rest2.head?

/-- Start-marker pattern of the shape `\s*Word1\s+Word2\b` at a line-start
position, case-insensitively — covers `Main Report` and
`Agricultural Subsidies` (app.py line 46). -/
def markerTwoWordsAt (w1 w2 : List Char) (s : List Char) : Bool :=
  match matchCI w1 (s.dropWhile isPySpace) with
  | none => false
  | some r =>
    match matchSpaces1 r with
    | none => false
    | some s2 =>
      match matchCI w2 s2 with
      | none => false
      | some r2 => boundaryOk r2.head?

/-- Suffixes of the text at line-start positions: the whole text, and the
remainder after every `'\n'` — the positions where a MULTILINE `^` can
anchor. -/
def afterNewlines : List Char → List (List Char)
  | [] => []
  | c :: rest =>
    if c = '\n' then rest :: afterNewlines rest else afterNewlines rest

/-- Line-start positions for MULTILINE matching. -/
def lineStartSuffixes (t : List Char) : List (List Char) :=
  t :: afterNewlines t

/-- Embedding of `page_has_marker(text, START_MARKERS)` (app.py
lines 45–46, 49–50): some start marker matches at some line start. -/
def page_has_start_marker (t : List Char) : Bool :=
  (lineStartSuffixes t).any fun s =>
    marker1At s || marker2At s ||
    markerTwoWordsAt "Main".toList "Report".toList s ||
    markerTwoWordsAt "Agricultural".toList "Subsidies".toList s

/-- Word-bounded case-insensitive occurrence of `w` starting at the head of
`s`, where `prev` is the character preceding `s` in the page (if any). -/
def endWordAt (w : List Char) (prev : Option Char) (s : List Char) : Bool :=
  boundaryOk prev &&
  (match matchCI w s with
   | some r => boundaryOk r.head?
   | none => false)

/-- Search for a word-bounded case-insensitive occurrence of `w` anywhere in
the text (regex search of `\bw\b` with IGNORECASE). -/
def searchWordCI (w : List Char) : Option Char → List Char → Bool
  | _, [] => false
  | prev, c :: rest => endWordAt w prev (c :: rest) || searchWordCI w (some c) rest

/-- Embedding of `page_has_marker(text, END_MARKERS)` (app.py lines 47,
49–50): the page contains `references`, `bibliography` or `appendix` as a
word, case-insensitively. -/
def page_has_end_marker (t : List Char) : Bool :=
  searchWordCI "references".toList none t ||
  searchWordCI "bibliography".toList none t ||
  searchWordCI "appendix".toList none t

/-- Start trigger for a page (app.py line 62): a start marker fires, or some
line of the page is a section heading. -/
def pageTriggersStart (text : List Char) : Bool :=
  page_has_start_marker text || (splitlines text).any is_section_heading

/-- Worker for the single-newline collapse (app.py line 68,
`re.sub` of a lone newline by a space): `prev` is the character preceding
the cursor in the original text. -/
def collapseNLAux (prev : Option Char) : List Char → List Char
  | [] => []
  | c :: rest =>
    (if c = '\n' ∧ prev ≠ some '\n' ∧ rest.head? ≠ some '\n' then ' ' else c) ::
      collapseNLAux (some c) rest

/-- Replace every newline not adjacent to another newline by a space
(app.py line 68). -/
def collapseNL (t : List Char) : List Char :=
  collapseNLAux none t

/-- Worker for `re.split` on runs of two or more newlines (app.py line 69):
scan left to right; at a position where two consecutive newlines start, cut
and consume the maximal newline run.  The flag records whether the cursor
is inside a newline run being consumed. -/
def splitNLAux : Bool → List Char → List Char → List (List Char)
  | false, acc, [] => [acc.reverse]
  | true, _, [] => [[]]
  | false, acc, c :: rest =>
    if c = '\n' ∧ rest.head? = some '\n' then
      acc.reverse :: splitNLAux true [] rest
    else
      splitNLAux false (c :: acc) rest
  | true, acc, c :: rest =>
    if c = '\n' then splitNLAux true acc rest
    else splitNLAux false [c] rest

/-- Split the page text at runs of two or more newlines (app.py line 69). -/
def splitMultiNL (t : List Char) : List (List Char) :=
  splitNLAux false [] t

/-- Output record of the segmenter: document name, 1-based page number, and
paragraph text (app.py line 74). -/
structure ParagraphRecord where
  documentName : List Char
  pageNumber : Nat
  paragraphText : List Char
  deriving DecidableEq

/-- Per-page paragraph reconstruction and filtering (app.py lines 68–74):
collapse lone newlines, split at multi-newline runs, clean and strip each
chunk, and keep those passing the per-chunk filter. -/
def processPage (name : List Char) (n : Nat) (text : List Char) : List ParagraphRecord :=
  (splitMultiNL (collapseNL text)).filterMap fun chunk =>
    let para := clean_text (strip chunk)
    if chunkKept para then some ⟨name, n, para⟩ else none

/-- Page-scan loop of `extract_paragraphs_from_pdf` (app.py lines 56–75):
`found` is the sticky start flag; a page is skipped until a start trigger
fires, the first end-marker page thereafter stops the scan, and every other
page from the triggering one on is processed. -/
def extractLoop (name : List Char) : Nat → Bool → List (List Char) → List ParagraphRecord
  | _, _, [] => []
  | n, found, text :: rest =>
    if found || pageTriggersStart text then
      if page_has_end_marker text then []
      else processPage name n text ++ extractLoop name (n + 1) true rest
    else
      extractLoop name (n + 1) false rest

/-- Embedding of `extract_paragraphs_from_pdf` (app.py lines 44–75) on the
ordered list of raw page texts, pages numbered from 1. -/
def extract_paragraphs_from_pdf (name : List Char) (pages : List (List Char)) :
    List ParagraphRecord :=
  extractLoop name 1 false pages

/-- Label preceding the main-theme value in a classifier reply. -/
def lblMain : List Char := "Main Theme:".toList

/-- Label preceding the sub-theme list in a classifier reply. -/
def lblSub : List Char := "Sub-Themes:".toList

/-- Label preceding the summary in a classifier reply. -/
def lblSum : List Char := "Summary:".toList

/-- Embedding of `safe_theme_name` (app.py lines 118–119): keep only word
characters, whitespace and hyphens, strip, and replace spaces by
underscores. -/
def safe_theme_name (t : List Char) : List Char :=
  (strip (t.filter fun c => isWordChar c || isPySpace c || c == '-')).map
    fun c => if c = ' ' then '_' else c

/-- Parsing of a classifier reply (app.py lines 136–139).  Mirrors the three
label splits of the source; `none` exactly when some `[1]` access raises
(label absent), in which case the record receives the sentinel values of
the `except` branch (lines 141–143). -/
def parseReply (res : List Char) : Option (List Char × List Char × List Char) :=
  match (pySplit lblMain res).get? 1 with
  | none => none
  | some seg1 =>
    let mainV := safe_theme_name (strip ((pySplit lblSub seg1).headD []))
    match (pySplit lblSub res).get? 1 with
    | none => none
    | some seg2 =>
      let subsV := strip ((pySplit lblSum seg2).headD [])
      let subJ := List.intercalate ", ".toList
        ((pySplit [','] (stripChars "[]".toList subsV)).map strip)
      match (pySplit lblSum res).get? 1 with
      | none => none
      | some seg3 => some (mainV, subJ, strip seg3)

/-- Final annotation triple (main theme, sub-themes, summary) stored for a
record given the reply text `res` (app.py lines 135–143): the parsed values,
or on parse failure the `PARSE_ERROR` sentinel, the diagnostic of the
`IndexError` raised by the failing `[1]` access, and the raw reply. -/
def classifyRecord (res : List Char) : List Char × List Char × List Char :=
  match parseReply res with
  | some v => v
  | none =>
    ("PARSE_ERROR".toList, "PARSE ERROR: list index out of range".toList, res)

/-- Occurrence count of a separator in a text: the number of positions at
which the separator is a prefix of the remaining suffix. -/
def occCount (sep : List Char) : List Char → Nat
  | [] => if sep.isEmpty then 1 else 0
  | c :: rest => (if sep.isPrefixOf (c :: rest) then 1 else 0) + occCount sep rest

/-- Statement-side predicate for claim C9: the text contains no two
consecutive newline characters. -/
def noConsecNL : List Char → Bool
  | c :: d :: rest => !(c == '\n' && d == '\n') && noConsecNL (d :: rest)
  | _ => true

/-- Statement-side chunk for claim C8's analysis: 55 words, no digits, with
the substring `Table` in running text (not as a heading). -/
def exTableChunk : List Char :=
  ("the Table " ++ String.intercalate " " (List.replicate 53 "policy")).toList

/-- Statement-side chunk for claim C8's analysis: 55 words, no digits, no
table or figure markers. -/
def exPlainChunk : List Char :=
  (String.intercalate " " (List.replicate 55 "policy")).toList

/-! Concrete documents used by the end-to-end example and the witnesses. -/

/-- Document identifier of the synthetic three-page example. -/
def exDocName : List Char := "policy.pdf".toList

/-- A 50-word paragraph with no digits and no table/figure markers. -/
def exBody50 : List Char :=
  (String.intercalate " " (List.replicate 50 "insight")).toList

/-- Page 1 of the example: cover matter firing no start trigger. -/
def exCover : List Char := "Cover Page\nA Study of Policy".toList

/-- Page 2 of the example: a `1. Introduction` heading, then the 50-word
paragraph on the following wrapped line. -/
def exIntro : List Char := "1. Introduction\n".toList ++ exBody50

/-- Page 3 of the example: `References` as its first line. -/
def exRefs : List Char := "References\nSmith J. Policy Review.".toList

/-! Claim C9. -/

/-- Positional characterization of the newline-collapse worker: the output
has the same positions as the input, a newline is replaced by a single
space exactly when neither neighbour (in the original text, with `prev`
standing before position 0) is a newline, and every other character is
unchanged. -/
theorem collapseNLAux_get (t : List Char) :
    ∀ (prev : Option Char) (i : Nat),
    (collapseNLAux prev t).get? i = (t.get? i).map fun c =>
      if c = '\n' ∧ (if i = 0 then prev else t.get? (i - 1)) ≠ some '\n' ∧
          t.get? (i + 1) ≠ some '\n'
      then ' ' else c := by
  induction t with
  | nil => intro prev i; rfl
  | cons c rest ih =>
    intro prev i
    cases i with
    | zero =>
      have hB : (c :: rest).get? (0 + 1) = rest.head? := by
        cases rest <;> rfl
      simp only [collapseNLAux, List.get?_cons_zero, Option.map_some', hB]
      rfl
    | succ j =>
      have hA : (if j = 0 then some c else rest.get? (j - 1)) = (c :: rest).get? j := by
        cases j with
        | zero => rfl
        | succ j' => simp [List.get?_cons_succ]
      have hB : rest.get? (j + 1) = (c :: rest).get? (j + 1 + 1) := by
        simp [List.get?_cons_succ]
      simp only [collapseNLAux, List.get?_cons_succ]
      rw [ih (some c) j, hA]
      rfl

/-- Skipping the remainder of a newline run: while the scan is inside a run
it consumes newlines without emitting anything. -/
theorem splitNLAux_skip_run (m : Nat) :
    ∀ (acc b : List Char),
    splitNLAux true acc (List.replicate m '\n' ++ b) = splitNLAux true acc b := by
  induction m with
  | zero => intro acc b; rfl
  | succ m' ih =>
    intro acc b
    simp only [List.replicate_succ, List.cons_append, splitNLAux, if_pos rfl]
    exact ih acc b

/-- In run-skipping state with a non-newline (or absent) next character, the
scan behaves like a fresh scan. -/
theorem splitNLAux_true_eq (acc b : List Char) (hb : b.head? ≠ some '\n') :
    splitNLAux true acc b = splitMultiNL b := by
  cases b with
  | nil => rfl
  | cons d b' =>
    have hd : d ≠ '\n' := by
      intro hdd
      exact hb (by rw [hdd]; rfl)
    have hcon2 : ¬(d = '\n' ∧ b'.head? = some '\n') := fun hc => hd hc.1
    rw [splitMultiNL, splitNLAux, splitNLAux, if_neg hd, if_neg hcon2]

/-- Main cut lemma for the multi-newline split: a chunk with no interior
double newline, not ending in a newline, followed by a run of at least two
newlines, is emitted whole and the scan continues after the run. -/
theorem splitNLAux_cut (k : Nat) (hk : 2 ≤ k) (b : List Char)
    (hb : b.head? ≠ some '\n') :
    ∀ (a acc : List Char), noConsecNL a = true → a.getLast? ≠ some '\n' →
    splitNLAux false acc (a ++ List.replicate k '\n' ++ b) =
      (acc.reverse ++ a) :: splitMultiNL b := by
  intro a
  induction a with
  | nil =>
    intro acc _ _
    match k, hk with
    | m + 2, _ =>
      simp only [List.nil_append, List.replicate_succ, List.cons_append, List.append_nil]
      rw [splitNLAux, if_pos (by simp [List.replicate_succ])]
      rw [show ('\n' :: (List.replicate m '\n' ++ b)) =
        List.replicate (m + 1) '\n' ++ b by simp [List.replicate_succ]]
      rw [splitNLAux_skip_run, splitNLAux_true_eq [] b hb]
  | cons c a' ih =>
    intro acc hnc hlast
    have hcond : ¬(c = '\n' ∧ ((a' ++ List.replicate k '\n' ++ b).head? = some '\n')) := by
      rintro ⟨hc, hh⟩
      cases a' with
      | nil =>
        exact hlast (by rw [hc]; rfl)
      | cons d a'' =>
        have hd : d = '\n' := by
          simpa using hh
        rw [noConsecNL, hc, hd] at hnc
        simp at hnc
    simp only [List.cons_append]
    rw [splitNLAux, if_neg (by simpa [List.append_assoc] using hcond)]
    have hnc' : noConsecNL a' = true := by
      cases a' with
      | nil => rfl
      | cons d a'' =>
        rw [noConsecNL] at hnc
        exact (Bool.and_eq_true_iff.mp hnc).2
    have hlast' : a'.getLast? ≠ some '\n' := by
      cases a' with
      | nil => simp
      | cons d a'' =>
        rw [List.getLast?_cons_cons] at hlast
        exact hlast
    rw [ih (c :: acc) hnc' hlast']
    simp

/-- C9: in per-page paragraph reconstruction, (i) the collapse step maps a
newline to exactly one space precisely when it is not adjacent to another
newline, leaving runs of two or more newlines (and all other characters)
unchanged, position by position; and (ii) the split step cuts the text
exactly at a maximal run of two or more newlines. -/
theorem newline_collapse_and_split :
    (∀ (t : List Char) (i : Nat),
      (collapseNL t).get? i = (t.get? i).map fun c =>
        if c = '\n' ∧ (i = 0 ∨ t.get? (i - 1) ≠ some '\n') ∧
            t.get? (i + 1) ≠ some '\n'
        then ' ' else c) ∧
    (∀ (a b : List Char) (k : Nat), 2 ≤ k → noConsecNL a = true →
      a.getLast? ≠ some '\n' → b.head? ≠ some '\n' →
      splitMultiNL (a ++ List.replicate k '\n' ++ b) = a :: splitMultiNL b) := by
  constructor
  · intro t i
    rw [collapseNL, collapseNLAux_get t none i]
    cases hti : t.get? i with
    | none => rfl
    | some c =>
      simp only [Option.map_some']
      congr 1
      cases i with
      | zero => simp
      | succ j => simp
  · intro a b k hk hnc hlast hb
    rw [splitMultiNL, splitNLAux_cut k hk b hb a [] hnc hlast]
    rfl

/-- Witness for C9: a concrete cut at a three-newline run. -/
theorem newline_collapse_and_split_witness :
    splitMultiNL ("para one".toList ++ List.replicate 3 '\n' ++ "para two".toList) =
      "para one".toList :: splitMultiNL "para two".toList :=
  newline_collapse_and_split.2 "para one".toList "para two".toList 3
    (by omega) (by decide) (by decide) (by decide)

end AefPolicy

namespace AefPolicy

/-! Helper lemmas. -/

/-- The exact integer comparison used in `is_probable_table` agrees with the
rational digit-ratio comparison of the source. -/
theorem ratioExceeds_iff (t : List Char) :
    ratioExceeds t = true ↔ (2 : ℚ) / 5 < num_ratio t := by
  rw [ratioExceeds, decide_eq_true_iff, num_ratio,
      div_lt_div_iff₀ (by norm_num)
        (Nat.cast_pos.mpr (show 0 < max 1 t.length by omega))]
  have key : ∀ a b : ℕ, ((2 * a : ℕ) : ℚ) < ((5 * b : ℕ) : ℚ) ↔
      (2 : ℚ) * (a : ℚ) < 5 * (b : ℚ) := by
    intro a b
    push_cast
    exact Iff.rfl
  constructor
  · intro h
    have h2 := (key _ _).mp (Nat.cast_lt.mpr h)
    linarith
  · intro h
    exact Nat.cast_lt.mp ((key _ _).mpr (by linarith))

/-! Claim C1. -/

/-- C1: a chunk whose text contains the substring `Table` (or `Figure`) is
rejected by the segmenter's per-chunk filter, regardless of its word count
and even if it starts with a `Table <number>`/`Figure <number>` heading:
`is_probable_table` flags it on the containment test alone, and the filter
consults that flag before the inclusion rule. -/
theorem table_substring_always_excluded (para : List Char)
    (h : containsSub "Table".toList para = true ∨
         containsSub "Figure".toList para = true) :
    chunkKept para = false := by
  have htab : is_probable_table para = true := by
    rw [is_probable_table]
    rcases h with h | h <;> simp_all
  simp [chunkKept, htab]

/-- Witness for C1 at a chunk that starts with a `Table <number>` heading
(an includable shape by the inclusion rule) and is nevertheless dropped. -/
theorem table_substring_always_excluded_witness :
    chunkKept "Table 3: Crop Yields by Region".toList = false :=
  table_substring_always_excluded _ (Or.inl (by decide))

/-! Claim C10. -/

/-- C10: the probable-table test is total on every string: the denominator
of its digit-ratio computation is `max 1 (length)`, which is positive for
every text (so the division is always defined), the ratio of the empty
string is `0`, and the test evaluates on the empty string (to `false`). -/
theorem num_ratio_total :
    (∀ t : List Char, (0 : ℚ) < ((max 1 t.length : ℕ) : ℚ)) ∧
    num_ratio [] = 0 ∧ is_probable_table [] = false := by
  refine ⟨fun t => Nat.cast_pos.mpr (by omega), ?_, by decide⟩
  norm_num [num_ratio, countDigits]

/-! Claim C5. -/

/-- C5: on the three-page synthetic document — cover matter on page 1,
`1. Introduction` followed by a 50-word paragraph on page 2, `References`
as the first line of page 3 — the segmenter yields exactly one record, and
its page number is 2.  (The heading and the paragraph are separated by a
single newline, so the collapse step reassembles them into one chunk.) -/
theorem three_page_example :
    (extract_paragraphs_from_pdf exDocName [exCover, exIntro, exRefs]).length = 1 ∧
    (extract_paragraphs_from_pdf exDocName [exCover, exIntro, exRefs]).map
      (fun r => r.pageNumber) = [2] := by
  constructor
  · decide
  · decide

/-! Claims C2 and C3: the page-scan state machine. -/

/-- Auxiliary: while no page triggers a start, the unstarted loop emits
nothing. -/
theorem extractLoop_no_trigger (name : List Char) (pages : List (List Char)) :
    ∀ n, (∀ p ∈ pages, pageTriggersStart p = false) →
    extractLoop name n false pages = [] := by
  induction pages with
  | nil => intro n _; rfl
  | cons p rest ih =>
    intro n hall
    have hp := hall p (by simp)
    rw [extractLoop]
    simp only [hp, Bool.false_or, Bool.false_eq_true, if_false]
    exact ih (n + 1) fun q hq => hall q (by simp [hq])

/-- Auxiliary: the unstarted loop skips exactly the pages before the first
trigger and continues, started, on the triggering page with the
corresponding page number. -/
theorem extractLoop_skip_until (name : List Char) (pages : List (List Char)) :
    ∀ k n, k < pages.length →
    (∀ i, i < k → pageTriggersStart (pages.getD i []) = false) →
    pageTriggersStart (pages.getD k []) = true →
    extractLoop name n false pages = extractLoop name (n + k) true (pages.drop k) := by
  induction pages with
  | nil => intro k n hk _ _; simp at hk
  | cons p rest ih =>
    intro k n hk hbefore htrig
    cases k with
    | zero =>
      have hp : pageTriggersStart p = true := by simpa using htrig
      simp only [Nat.add_zero, List.drop_zero]
      rw [extractLoop, extractLoop]
      simp [hp]
    | succ k' =>
      have hp : pageTriggersStart p = false := by simpa using hbefore 0 (by omega)
      rw [extractLoop]
      simp only [hp, Bool.false_or, Bool.false_eq_true, if_false]
      rw [ih k' (n + 1) (by simpa using hk)
            (fun i hi => by simpa using hbefore (i + 1) (by omega))
            (by simpa using htrig)]
      simp only [List.drop_succ_cons]
      congr 1
      omega

/-- C2: the segmenter's output comes only from the first page on which a
start trigger fires and from later pages.  If no page triggers, the output
is empty; if page `k` (0-based) is the first trigger, the whole run equals
the started loop beginning at that very page (so the triggering page is
processed, pre-trigger pages contribute nothing). -/
theorem start_gating (name : List Char) (pages : List (List Char)) :
    ((∀ p ∈ pages, pageTriggersStart p = false) →
      extract_paragraphs_from_pdf name pages = []) ∧
    (∀ k, k < pages.length →
      (∀ i, i < k → pageTriggersStart (pages.getD i []) = false) →
      pageTriggersStart (pages.getD k []) = true →
      extract_paragraphs_from_pdf name pages =
        extractLoop name (k + 1) true (pages.drop k)) := by
  constructor
  · intro hall
    exact extractLoop_no_trigger name pages 1 hall
  · intro k hk hb ht
    rw [extract_paragraphs_from_pdf, extractLoop_skip_until name pages k 1 hk hb ht]
    congr 1
    omega

/-- Witness for C2 on the three-page example: page 1 does not trigger,
page 2 does, and the run equals the started loop from page 2. -/
theorem start_gating_witness :
    extract_paragraphs_from_pdf exDocName [exCover, exIntro, exRefs] =
      extractLoop exDocName 2 true [exIntro, exRefs] :=
  (start_gating exDocName [exCover, exIntro, exRefs]).2 1 (by decide)
    (fun i hi => by
      have h0 : i = 0 := by omega
      subst h0
      decide)
    (by decide)

/-- C3: once the start has been found, the first page matching an end marker
stops the scan before any of that page's content is emitted — the output
equals the output of the pages before it, and no later page contributes. -/
theorem end_marker_stops (name : List Char) (n : Nat) (pre post : List (List Char))
    (epage : List Char)
    (hpre : ∀ p ∈ pre, page_has_end_marker p = false)
    (he : page_has_end_marker epage = true) :
    extractLoop name n true (pre ++ epage :: post) = extractLoop name n true pre := by
  induction pre generalizing n with
  | nil =>
    simp only [List.nil_append]
    rw [extractLoop]
    simp [he, extractLoop]
  | cons p pre' ih =>
    have hp := hpre p (by simp)
    simp only [List.cons_append]
    rw [extractLoop, extractLoop]
    simp only [Bool.true_or, if_true, hp, Bool.false_eq_true, if_false]
    rw [ih (n + 1) (fun q hq => hpre q (by simp [hq]))]

/-- Witness for C3: appending a references page (and nothing after it) to
the started loop changes nothing — its content is never processed. -/
theorem end_marker_stops_witness :
    extractLoop exDocName 2 true [exIntro, exRefs] =
      extractLoop exDocName 2 true [exIntro] :=
  end_marker_stops exDocName 2 [exIntro] [] exRefs
    (fun p hp => by
      have hpe : p = exIntro := by simpa using hp
      subst hpe
      decide)
    (by decide)

/-! Lemmas about `pySplit`, supporting claims C6 and C7. -/

/-- Consuming an already-matched block: a positive skip counter eats exactly
that many characters. -/
theorem splitOnSubAux_skip (sep : List Char) (u : List Char) :
    ∀ v acc, splitOnSubAux sep u.length acc (u ++ v) = splitOnSubAux sep 0 acc v := by
  induction u with
  | nil => intro v acc; rfl
  | cons x u' ih =>
    intro v acc
    simp only [List.cons_append, List.length_cons, splitOnSubAux]
    exact ih v acc

/-- With no occurrence of the separator, the scan accumulates the whole
text into a single chunk. -/
theorem splitOnSubAux_of_not_contains (sep : List Char) (t : List Char)
    (h : containsSub sep t = false) :
    ∀ acc, splitOnSubAux sep 0 acc t = [acc.reverse ++ t] := by
  induction t with
  | nil => intro acc; simp [splitOnSubAux]
  | cons c rest ih =>
    intro acc
    rw [containsSub, Bool.or_eq_false_iff] at h
    rw [splitOnSubAux, if_neg (by simp [h.1])]
    rw [ih h.2 (c :: acc)]
    simp

/-- Embedding of the fact that `t.split(sep)` is `[t]` when `sep` does not
occur in `t`. -/
theorem pySplit_of_not_contains (sep t : List Char) (hne : sep ≠ [])
    (h : containsSub sep t = false) : pySplit sep t = [t] := by
  cases sep with
  | nil => exact absurd rfl hne
  | cons a s =>
    rw [pySplit, splitOnSubAux_of_not_contains _ _ h []]
    rfl

/-- Cutting at the first occurrence: if the separator occurs nowhere in the
region before the marked occurrence, the scan emits the prefix and
continues after the separator. -/
theorem splitOnSubAux_first_occurrence (sep : List Char) (hne : sep ≠ []) (y : List Char) :
    ∀ (x : List Char) (acc : List Char),
    (∀ i, i < x.length → sep.isPrefixOf ((x ++ (sep ++ y)).drop i) = false) →
    splitOnSubAux sep 0 acc (x ++ (sep ++ y)) =
      (acc.reverse ++ x) :: splitOnSubAux sep 0 [] y := by
  intro x
  induction x with
  | nil =>
    intro acc _
    cases sep with
    | nil => exact absurd rfl hne
    | cons a s =>
      simp only [List.nil_append, List.cons_append, List.append_nil]
      rw [splitOnSubAux,
        if_pos (List.isPrefixOf_iff_prefix.mpr (⟨y, by simp⟩ : (a :: s) <+: _))]
      have hlen : (a :: s).length - 1 = s.length := by simp
      rw [hlen, splitOnSubAux_skip (a :: s) s y []]
  | cons c x' ih =>
    intro acc h
    have h0 : sep.isPrefixOf (c :: (x' ++ (sep ++ y))) = false := by
      have := h 0 (by simp)
      simpa using this
    simp only [List.cons_append]
    rw [splitOnSubAux, if_neg (by simp [h0])]
    rw [ih (c :: acc) (fun i hi => by
      have := h (i + 1) (by simp only [List.length_cons]; omega)
      simpa using this)]
    simp

/-- Occurrences in a suffix are occurrences of the whole. -/
theorem occCount_le_append (sep : List Char) (u : List Char) :
    ∀ v, occCount sep v ≤ occCount sep (u ++ v) := by
  induction u with
  | nil => intro v; simp
  | cons c u' ih =>
    intro v
    rw [List.cons_append, occCount]
    have := ih v
    omega

/-- A marked occurrence contributes: at least `1 + occCount sep y`
occurrences in `x ++ sep ++ y`. -/
theorem occCount_marked (sep : List Char) (hne : sep ≠ []) :
    ∀ x y, 1 + occCount sep y ≤ occCount sep (x ++ sep ++ y) := by
  intro x
  induction x with
  | nil =>
    intro y
    cases sep with
    | nil => exact absurd rfl hne
    | cons a s =>
      simp only [List.nil_append, List.cons_append]
      rw [occCount, if_pos (List.isPrefixOf_iff_prefix.mpr ⟨y, by simp⟩)]
      have := occCount_le_append (a :: s) s y
      omega
  | cons c x' ih =>
    intro y
    rw [List.cons_append, List.cons_append, occCount]
    have := ih y
    simp only [List.cons_append] at this ⊢
    omega

/-- An occurrence strictly before the marked one forces at least two
occurrences. -/
theorem occCount_two_of_early (sep : List Char) (hne : sep ≠ []) :
    ∀ (x : List Char) (y : List Char) (i : Nat), i < x.length →
    sep.isPrefixOf ((x ++ sep ++ y).drop i) = true →
    2 ≤ occCount sep (x ++ sep ++ y) := by
  intro x
  induction x with
  | nil => intro y i hi; simp at hi
  | cons c x' ih =>
    intro y i hi hpre
    cases i with
    | zero =>
      simp only [List.cons_append, List.drop_zero] at hpre
      simp only [List.cons_append]
      rw [occCount, if_pos hpre]
      have := occCount_marked sep hne x' y
      omega
    | succ j =>
      have hj : j < x'.length := by simpa using hi
      have hpre' : sep.isPrefixOf ((x' ++ sep ++ y).drop j) = true := by
        simpa using hpre
      have := ih y j hj hpre'
      simp only [List.cons_append]
      rw [occCount]
      omega

/-- A contained separator contributes at least one occurrence. -/
theorem occCount_pos_of_contains (sep : List Char) :
    ∀ t, containsSub sep t = true → 1 ≤ occCount sep t := by
  intro t
  induction t with
  | nil =>
    intro h
    rw [containsSub] at h
    rw [occCount, if_pos h]
  | cons c rest ih =>
    intro h
    rw [containsSub, Bool.or_eq_true] at h
    rw [occCount]
    rcases h with h | h
    · rw [if_pos h]; omega
    · have := ih h; omega

/-- A separator occurring exactly once splits the text into exactly the part
before and the part after that occurrence. -/
theorem pySplit_of_single_occurrence (sep : List Char) (hne : sep ≠ [])
    (x y : List Char) (h : occCount sep (x ++ sep ++ y) = 1) :
    pySplit sep (x ++ sep ++ y) = [x, y] := by
  have hx : ∀ i, i < x.length → sep.isPrefixOf ((x ++ sep ++ y).drop i) = false := by
    intro i hi
    by_contra hc
    have hc' : sep.isPrefixOf ((x ++ sep ++ y).drop i) = true := by
      revert hc
      cases sep.isPrefixOf ((x ++ sep ++ y).drop i) <;> simp
    have := occCount_two_of_early sep hne x y i hi hc'
    omega
  have hy : containsSub sep y = false := by
    by_contra hc
    have hc' : containsSub sep y = true := by
      revert hc
      cases containsSub sep y <;> simp
    have h1 := occCount_pos_of_contains sep y hc'
    have h2 := occCount_marked sep hne x y
    omega
  cases sep with
  | nil => exact absurd rfl hne
  | cons a s =>
    rw [pySplit, List.append_assoc,
      splitOnSubAux_first_occurrence (a :: s) hne y x []
        (fun i hi => by have := hx i hi; rwa [List.append_assoc] at this),
      splitOnSubAux_of_not_contains _ _ hy []]
    rfl

/-! Claim C7. -/

/-- Auxiliary: when the separator is absent, the `[1]` access of the
source's `split(...)[1]` has no value. -/
theorem pySplit_get_one_none (sep t : List Char) (hne : sep ≠ [])
    (h : containsSub sep t = false) : (pySplit sep t).get? 1 = none := by
  rw [pySplit_of_not_contains sep t hne h]
  rfl

/-- C7: for every reply missing one of the three labels (in particular the
`ERROR:`-prefixed string substituted on a service failure), the stored
record is exactly the sentinel main theme `PARSE_ERROR`, the diagnostic
string of the raised `IndexError`, and the raw reply verbatim as summary —
all three fields are set. -/
theorem classify_malformed (res : List Char)
    (h : containsSub lblMain res = false ∨ containsSub lblSub res = false ∨
         containsSub lblSum res = false) :
    classifyRecord res =
      ("PARSE_ERROR".toList, "PARSE ERROR: list index out of range".toList, res) := by
  have hnone : parseReply res = none := by
    rw [parseReply]
    rcases h with h | h | h
    · rw [pySplit_get_one_none lblMain res (by decide) h]
    · cases h1 : (pySplit lblMain res).get? 1 with
      | none => rfl
      | some seg1 =>
        rw [pySplit_get_one_none lblSub res (by decide) h]
    · cases h1 : (pySplit lblMain res).get? 1 with
      | none => rfl
      | some seg1 =>
        cases h2 : (pySplit lblSub res).get? 1 with
        | none => rfl
        | some seg2 =>
          rw [pySplit_get_one_none lblSum res (by decide) h]
  rw [classifyRecord, hnone]

/-- Witness for C7 at the reply substituted for a failed service call. -/
theorem classify_malformed_witness :
    classifyRecord "ERROR: The service is unavailable".toList =
      ("PARSE_ERROR".toList, "PARSE ERROR: list index out of range".toList,
       "ERROR: The service is unavailable".toList) :=
  classify_malformed _ (Or.inl (by decide))

/-! Claim C6. -/

/-- C6: for a reply consisting of the three labels in order, each occurring
exactly once — `p0 ++ "Main Theme:" ++ a ++ "Sub-Themes:" ++ b ++
"Summary:" ++ c` — the stored main theme is the sanitized text between the
first two labels, the stored sub-themes are the text between the last two
labels with surrounding brackets stripped, split on commas, trimmed and
re-joined with `", "`, and the stored summary is the trimmed text after
`Summary:`. -/
theorem classify_wellformed (p0 a b c res : List Char)
    (hres : res = p0 ++ lblMain ++ a ++ lblSub ++ b ++ lblSum ++ c)
    (h1 : occCount lblMain res = 1)
    (h2 : occCount lblSub res = 1)
    (h3 : occCount lblSum res = 1) :
    classifyRecord res =
      (safe_theme_name (strip a),
       List.intercalate ", ".toList
         ((pySplit [','] (stripChars "[]".toList (strip b))).map strip),
       strip c) := by
  subst hres
  have e1 : p0 ++ lblMain ++ a ++ lblSub ++ b ++ lblSum ++ c =
      p0 ++ lblMain ++ (a ++ lblSub ++ b ++ lblSum ++ c) := by
    simp [List.append_assoc]
  have e2 : p0 ++ lblMain ++ a ++ lblSub ++ b ++ lblSum ++ c =
      (p0 ++ lblMain ++ a) ++ lblSub ++ (b ++ lblSum ++ c) := by
    simp [List.append_assoc]
  have e3 : p0 ++ lblMain ++ a ++ lblSub ++ b ++ lblSum ++ c =
      (p0 ++ lblMain ++ a ++ lblSub ++ b) ++ lblSum ++ c := by
    simp [List.append_assoc]
  have e4 : a ++ lblSub ++ b ++ lblSum ++ c =
      a ++ lblSub ++ (b ++ lblSum ++ c) := by
    simp [List.append_assoc]
  have S1 : pySplit lblMain (p0 ++ lblMain ++ a ++ lblSub ++ b ++ lblSum ++ c) =
      [p0, a ++ lblSub ++ b ++ lblSum ++ c] := by
    rw [e1]
    exact pySplit_of_single_occurrence lblMain (by decide) _ _ (e1 ▸ h1)
  have hsub1 : occCount lblSub (a ++ lblSub ++ b ++ lblSum ++ c) = 1 := by
    have hup : occCount lblSub (a ++ lblSub ++ b ++ lblSum ++ c) ≤ 1 := by
      rw [← h2, e1]
      exact occCount_le_append lblSub (p0 ++ lblMain) _
    have hlow := occCount_marked lblSub (by decide) a (b ++ lblSum ++ c)
    rw [← e4] at hlow
    omega
  have S2 : pySplit lblSub (a ++ lblSub ++ b ++ lblSum ++ c) =
      [a, b ++ lblSum ++ c] := by
    rw [e4]
    exact pySplit_of_single_occurrence lblSub (by decide) _ _ (e4 ▸ hsub1)
  have S3 : pySplit lblSub (p0 ++ lblMain ++ a ++ lblSub ++ b ++ lblSum ++ c) =
      [p0 ++ lblMain ++ a, b ++ lblSum ++ c] := by
    rw [e2]
    exact pySplit_of_single_occurrence lblSub (by decide) _ _ (e2 ▸ h2)
  have hsum1 : occCount lblSum (b ++ lblSum ++ c) = 1 := by
    have hmid : occCount lblSum (a ++ lblSub ++ (b ++ lblSum ++ c)) ≤ 1 := by
      rw [← e4, ← h3, e1]
      exact occCount_le_append lblSum (p0 ++ lblMain) _
    have hup : occCount lblSum (b ++ lblSum ++ c) ≤ 1 := by
      calc occCount lblSum (b ++ lblSum ++ c)
          ≤ occCount lblSum ((a ++ lblSub) ++ (b ++ lblSum ++ c)) :=
            occCount_le_append lblSum (a ++ lblSub) _
        _ ≤ 1 := by
            rw [show (a ++ lblSub) ++ (b ++ lblSum ++ c) =
              a ++ lblSub ++ (b ++ lblSum ++ c) by simp [List.append_assoc]]
            exact hmid
    have hlow := occCount_marked lblSum (by decide) b c
    omega
  have S4 : pySplit lblSum (b ++ lblSum ++ c) = [b, c] :=
    pySplit_of_single_occurrence lblSum (by decide) _ _ hsum1
  have S5 : pySplit lblSum (p0 ++ lblMain ++ a ++ lblSub ++ b ++ lblSum ++ c) =
      [p0 ++ lblMain ++ a ++ lblSub ++ b, c] := by
    rw [e3]
    exact pySplit_of_single_occurrence lblSum (by decide) _ _ (e3 ▸ h3)
  have g1 : (pySplit lblMain
      (p0 ++ lblMain ++ a ++ lblSub ++ b ++ lblSum ++ c)).get? 1 =
      some (a ++ lblSub ++ b ++ lblSum ++ c) := by
    rw [S1]
    rfl
  have g2 : (pySplit lblSub
      (p0 ++ lblMain ++ a ++ lblSub ++ b ++ lblSum ++ c)).get? 1 =
      some (b ++ lblSum ++ c) := by
    rw [S3]
    rfl
  have g3 : (pySplit lblSum
      (p0 ++ lblMain ++ a ++ lblSub ++ b ++ lblSum ++ c)).get? 1 = some c := by
    rw [S5]
    rfl
  have hsome : parseReply (p0 ++ lblMain ++ a ++ lblSub ++ b ++ lblSum ++ c) =
      some (safe_theme_name (strip a),
        List.intercalate ", ".toList
          ((pySplit [','] (stripChars "[]".toList (strip b))).map strip),
        strip c) := by
    rw [parseReply, g1]
    dsimp only
    rw [g2]
    dsimp only
    rw [g3]
    dsimp only
    rw [S2, S4]
    rfl
  rw [classifyRecord, hsome]

/-- Witness for C6 at a concrete well-formed reply. -/
theorem classify_wellformed_witness :
    classifyRecord
      ("Main Theme: Farmer Welfare\nSub-Themes: [Farmer Incomes, Nutrition Security]\nSummary: Crop incomes improve.".toList) =
      ("Farmer_Welfare".toList,
       "Farmer Incomes, Nutrition Security".toList,
       "Crop incomes improve.".toList) := by
  have h := classify_wellformed []
    " Farmer Welfare\n".toList
    " [Farmer Incomes, Nutrition Security]\n".toList
    " Crop incomes improve.".toList
    ("Main Theme: Farmer Welfare\nSub-Themes: [Farmer Incomes, Nutrition Security]\nSummary: Crop incomes improve.".toList)
    (by decide) (by decide) (by decide) (by decide)
  rw [h]
  decide

/-! Claim C8. -/

/-- Auxiliary: a line without digit characters has no digit runs. -/
theorem numRunsAux_eq_zero (l : List Char) :
    ∀ flag, (∀ x ∈ l, x.isDigit = false) → numRunsAux flag l = 0 := by
  induction l with
  | nil => intro flag _; rfl
  | cons c rest ih =>
    intro flag h
    have hc := h c (by simp)
    rw [numRunsAux, if_neg (by simp [hc])]
    exact ih false fun x hx => h x (by simp [hx])

/-- Auxiliary: characters of the chunks of a newline split come from the
accumulator or the text. -/
theorem mem_splitOnSubAux_newline (t : List Char) :
    ∀ (acc l : List Char), l ∈ splitOnSubAux ['\n'] 0 acc t →
    ∀ x ∈ l, x ∈ acc ∨ x ∈ t := by
  induction t with
  | nil =>
    intro acc l hl x hx
    simp only [splitOnSubAux, List.mem_singleton] at hl
    subst hl
    exact Or.inl (List.mem_reverse.mp hx)
  | cons c rest ih =>
    intro acc l hl x hx
    rw [splitOnSubAux] at hl
    by_cases hc : ['\n'].isPrefixOf (c :: rest) = true
    · rw [if_pos hc] at hl
      rcases List.mem_cons.mp hl with h | h
      · subst h
        exact Or.inl (List.mem_reverse.mp hx)
      · rcases ih [] l h x hx with h' | h'
        · simp at h'
        · exact Or.inr (List.mem_cons_of_mem _ h')
    · rw [if_neg hc] at hl
      rcases ih (c :: acc) l hl x hx with h' | h'
      · rcases List.mem_cons.mp h' with h'' | h''
        · exact Or.inr (h'' ▸ List.mem_cons_self _ _)
        · exact Or.inl h''
      · exact Or.inr (List.mem_cons_of_mem _ h')

/-- Counterexample to C8 as stated: a chunk of exactly 55 words with no
digit characters, matching no numbered/Figure/Table heading pattern, is
nevertheless rejected, because it contains the substring `Table` in running
text and the probable-table test fires on containment alone. -/
theorem fifty_five_word_chunk_counterexample :
    wordCount exTableChunk = 55 ∧
    (∀ ch ∈ exTableChunk, ch.isDigit = false) ∧
    matchesNumHeading exTableChunk = false ∧
    matchesFigureHeading exTableChunk = false ∧
    matchesTableHeading exTableChunk = false ∧
    chunkKept exTableChunk = false := by
  refine ⟨by decide, by decide, by decide, by decide, by decide, by decide⟩

/-- C8 (amended): a chunk of exactly 55 words, with no digit characters, not
matching a numbered/Figure/Table heading pattern, **and not containing the
substrings `Table` or `Figure`**, is kept by the per-chunk filter. -/
theorem fifty_five_word_chunk_kept (para : List Char)
    (hw : wordCount para = 55)
    (hd : ∀ ch ∈ para, ch.isDigit = false)
    (_hn1 : matchesNumHeading para = false)
    (_hn2 : matchesFigureHeading para = false)
    (_hn3 : matchesTableHeading para = false)
    (ht : containsSub "Table".toList para = false)
    (hf : containsSub "Figure".toList para = false) :
    chunkKept para = true := by
  have hne : para ≠ [] := by
    intro h
    rw [h] at hw
    simp [wordCount, wordCountAux] at hw
  have hlines : ∀ l ∈ pySplit ['\n'] para, decide (3 < numRuns l) = false := by
    intro l hl
    have hmem : ∀ x ∈ l, x ∈ para := by
      intro x hx
      rcases mem_splitOnSubAux_newline para [] l hl x hx with h | h
      · simp at h
      · exact h
    have : numRuns l = 0 :=
      numRunsAux_eq_zero l false fun x hx => hd x (hmem x hx)
    simp [this]
  have hfilter : (pySplit ['\n'] para).filter (fun l => decide (3 < numRuns l)) = [] :=
    List.filter_eq_nil_iff.mpr fun l hl => by simp [hlines l hl]
  have hcd : countDigits para = 0 := by
    rw [countDigits, List.filter_eq_nil_iff.mpr fun x hx => by simp [hd x hx]]
    rfl
  have hratio : ratioExceeds para = false := by
    rw [ratioExceeds, hcd]
    simp
  have htab : is_probable_table para = false := by
    have hcond : ¬((containsSub "Table".toList para || containsSub "Figure".toList para) = true) := by
      simp only [Bool.or_eq_true]
      rintro (h | h)
      · rw [ht] at h
        exact Bool.false_ne_true h
      · rw [hf] at h
        exact Bool.false_ne_true h
    rw [is_probable_table, if_neg hcond]
    simp only [hfilter, hratio]
    rfl
  have hincl : inclusionRule para = true := by
    rw [inclusionRule, hw]
    simp
  rw [chunkKept, htab, hincl]
  simp [hne]

/-- Witness for the amended C8 at a concrete 55-word chunk. -/
theorem fifty_five_word_chunk_kept_witness :
    chunkKept exPlainChunk = true :=
  fifty_five_word_chunk_kept exPlainChunk (by decide) (by decide) (by decide)
    (by decide) (by decide) (by decide) (by decide)

/-! Claim C4. -/

/-- Digit characters in terms of code points. -/
theorem isDigit_iff_toNat (c : Char) :
    c.isDigit = true ↔ 48 ≤ c.toNat ∧ c.toNat ≤ 57 := by
  constructor
  · intro h
    simp only [Char.isDigit, Bool.and_eq_true, decide_eq_true_eq] at h
    exact ⟨h.1, h.2⟩
  · intro h
    simp only [Char.isDigit, Bool.and_eq_true, decide_eq_true_eq]
    exact ⟨h.1, h.2⟩

/-- Uppercase letters in terms of code points. -/
theorem upper_toNat (c : Char) (h1 : 'A' ≤ c) (h2 : c ≤ 'Z') :
    65 ≤ c.toNat ∧ c.toNat ≤ 90 := by
  rw [Char.le_def] at h1 h2
  exact ⟨h1, h2⟩

/-- Whitespace in terms of code points. -/
theorem isPySpace_iff_toNat (c : Char) :
    isPySpace c = true ↔ (c.toNat = 32 ∨ (9 ≤ c.toNat ∧ c.toNat ≤ 13) ∨
      (28 ≤ c.toNat ∧ c.toNat ≤ 31) ∨ c.toNat = 133 ∨ c.toNat = 160 ∨
      c.toNat = 0x1680 ∨ (0x2000 ≤ c.toNat ∧ c.toNat ≤ 0x200a) ∨
      c.toNat = 0x2028 ∨ c.toNat = 0x2029 ∨ c.toNat = 0x202f ∨
      c.toNat = 0x205f ∨ c.toNat = 0x3000) := by
  simp only [isPySpace, Bool.or_eq_true, Bool.and_eq_true, decide_eq_true_eq]
  tauto

/-- A digit character is not whitespace. -/
theorem isDigit_not_space (c : Char) (h : c.isDigit = true) : isPySpace c = false := by
  rw [Bool.eq_false_iff]
  intro hs
  have h1 := (isDigit_iff_toNat c).mp h
  have h2 := (isPySpace_iff_toNat c).mp hs
  omega

/-- An uppercase letter is not whitespace. -/
theorem upper_not_space (c : Char) (h1 : 'A' ≤ c) (h2 : c ≤ 'Z') :
    isPySpace c = false := by
  rw [Bool.eq_false_iff]
  intro hs
  have h3 := upper_toNat c h1 h2
  have h4 := (isPySpace_iff_toNat c).mp hs
  omega

/-- A whitespace character is not a digit. -/
theorem space_not_digit (c : Char) (h : isPySpace c = true) : c.isDigit = false := by
  rw [Bool.eq_false_iff]
  intro hd
  have h1 := (isDigit_iff_toNat c).mp hd
  have h2 := (isPySpace_iff_toNat c).mp h
  omega

/-- A whitespace character is not a full stop. -/
theorem space_ne_dot (c : Char) (h : isPySpace c = true) : c ≠ '.' := by
  intro hc
  subst hc
  exact absurd h (by decide)

/-- A whitespace character is not a closing parenthesis. -/
theorem space_ne_paren (c : Char) (h : isPySpace c = true) : c ≠ ')' := by
  intro hc
  subst hc
  exact absurd h (by decide)

/-- Drop-while over a block wholly satisfying the predicate. -/
theorem dropWhile_append_of_all {p : Char → Bool} (u : List Char)
    (hu : ∀ x ∈ u, p x = true) (v : List Char) :
    (u ++ v).dropWhile p = v.dropWhile p := by
  induction u with
  | nil => rfl
  | cons a u' ih =>
    rw [List.cons_append, List.dropWhile_cons, if_pos (hu a (by simp))]
    exact ih fun x hx => hu x (by simp [hx])

/-- Drop-while stops at a head failing the predicate. -/
theorem dropWhile_cons_of_neg {p : Char → Bool} (a : Char) (l : List Char)
    (h : p a = false) : (a :: l).dropWhile p = a :: l := by
  rw [List.dropWhile_cons, if_neg (by simp [h])]

/-- Decomposition of a successful digit-run match. -/
theorem matchDigits1_decomp (s r1 : List Char) (h : matchDigits1 s = some r1) :
    ∃ d, s = d ++ r1 ∧ d ≠ [] ∧ ∀ x ∈ d, x.isDigit = true := by
  cases s with
  | nil => exact absurd h (by simp [matchDigits1])
  | cons c0 s' =>
    rw [matchDigits1] at h
    by_cases hc0 : c0.isDigit = true
    · rw [if_pos hc0] at h
      injection h with h'
      refine ⟨c0 :: s'.takeWhile Char.isDigit, ?_, by simp, ?_⟩
      · rw [← h', List.cons_append, List.takeWhile_append_dropWhile]
      · intro x hx
        rcases List.mem_cons.mp hx with h'' | h''
        · rw [h'']
          exact hc0
        · exact List.mem_takeWhile_imp h''
    · rw [if_neg hc0] at h
      cases h

/-- Decomposition of a successful whitespace-run match. -/
theorem matchSpaces1_decomp (s r1 : List Char) (h : matchSpaces1 s = some r1) :
    ∃ w, s = w ++ r1 ∧ w ≠ [] ∧ ∀ x ∈ w, isPySpace x = true := by
  cases s with
  | nil => exact absurd h (by simp [matchSpaces1])
  | cons c0 s' =>
    rw [matchSpaces1] at h
    by_cases hc0 : isPySpace c0 = true
    · rw [if_pos hc0] at h
      injection h with h'
      refine ⟨c0 :: s'.takeWhile isPySpace, ?_, by simp, ?_⟩
      · rw [← h', List.cons_append, List.takeWhile_append_dropWhile]
      · intro x hx
        rcases List.mem_cons.mp hx with h'' | h''
        · rw [h'']
          exact hc0
        · exact List.mem_takeWhile_imp h''
    · rw [if_neg hc0] at h
      cases h

/-- Decomposition of the optional-punctuation step. -/
theorem matchOptPunct_decomp (s : List Char) :
    ∃ p, s = p ++ matchOptPunct s ∧ (p = [] ∨ p = ['.'] ∨ p = [')']) := by
  cases s with
  | nil => exact ⟨[], rfl, Or.inl rfl⟩
  | cons q s' =>
    by_cases hdot : q = '.'
    · subst hdot
      refine ⟨['.'], ?_, Or.inr (Or.inl rfl)⟩
      rw [matchOptPunct]
      simp
    · by_cases hpar : q = ')'
      · subst hpar
        refine ⟨[')'], ?_, Or.inr (Or.inr rfl)⟩
        rw [matchOptPunct]
        simp
      · refine ⟨[], ?_, Or.inl rfl⟩
        rw [matchOptPunct, if_neg (by simp [hdot, hpar])]
        rfl

/-- Evaluation of the digit-run matcher on a decomposed input. -/
theorem matchDigits1_eval (d rest : List Char) (hdne : d ≠ [])
    (hd : ∀ x ∈ d, x.isDigit = true)
    (hrest : ∀ x, rest.head? = some x → x.isDigit = false) :
    matchDigits1 (d ++ rest) = some rest := by
  cases d with
  | nil => exact absurd rfl hdne
  | cons c0 d' =>
    rw [List.cons_append, matchDigits1, if_pos (hd c0 (by simp))]
    congr 1
    rw [dropWhile_append_of_all d' (fun x hx => hd x (by simp [hx])) rest]
    cases rest with
    | nil => rfl
    | cons y rest' => exact dropWhile_cons_of_neg y rest' (hrest y rfl)

/-- Evaluation of the whitespace-run matcher on a decomposed input. -/
theorem matchSpaces1_eval (w rest : List Char) (hwne : w ≠ [])
    (hw : ∀ x ∈ w, isPySpace x = true)
    (hrest : ∀ x, rest.head? = some x → isPySpace x = false) :
    matchSpaces1 (w ++ rest) = some rest := by
  cases w with
  | nil => exact absurd rfl hwne
  | cons w0 w' =>
    rw [List.cons_append, matchSpaces1, if_pos (hw w0 (by simp))]
    congr 1
    rw [dropWhile_append_of_all w' (fun x hx => hw x (by simp [hx])) rest]
    cases rest with
    | nil => rfl
    | cons y rest' => exact dropWhile_cons_of_neg y rest' (hrest y rfl)

/-- Counterexample to C4 as stated: the line `1 Abcd` — a number, a space, a
capital letter and exactly 3 further characters — is treated as a section
heading by the code, though the claim says at least 4 further characters
are required. -/
theorem section_heading_three_chars_counterexample :
    "1 Abcd".toList = '1' :: ' ' :: 'A' :: "bcd".toList ∧
    ("bcd".toList).length = 3 ∧
    is_section_heading "1 Abcd".toList = true := by
  refine ⟨by decide, by decide, by decide⟩

/-- C4 (amended): a line counts as a section heading exactly when its
stripped form decomposes as optional whitespace, a non-empty digit run,
optional `.`/`)`, non-empty whitespace, then a capital letter followed by
at least **3** further characters of which the first three are not
newlines. -/
theorem is_section_heading_iff (t : List Char) :
    is_section_heading t = true ↔
    ∃ s0 d p w c r,
      strip t = s0 ++ d ++ p ++ w ++ c :: r ∧
      (∀ x ∈ s0, isPySpace x = true) ∧
      d ≠ [] ∧ (∀ x ∈ d, x.isDigit = true) ∧
      (p = [] ∨ p = ['.'] ∨ p = [')']) ∧
      w ≠ [] ∧ (∀ x ∈ w, isPySpace x = true) ∧
      'A' ≤ c ∧ c ≤ 'Z' ∧
      3 ≤ r.length ∧ (∀ x ∈ r.take 3, x ≠ '\n') := by
  constructor
  · intro h
    rw [is_section_heading] at h
    cases h1 : matchDigits1 ((strip t).dropWhile isPySpace) with
    | none => rw [h1] at h; simp at h
    | some r1 =>
      rw [h1] at h
      dsimp only at h
      cases h2 : matchSpaces1 (matchOptPunct r1) with
      | none => rw [h2] at h; simp at h
      | some r2 =>
        rw [h2] at h
        dsimp only at h
        cases r2 with
        | nil => simp at h
        | cons c r =>
          dsimp only at h
          simp only [Bool.and_eq_true, decide_eq_true_eq, List.all_eq_true,
            bne_iff_ne, ne_eq] at h
          obtain ⟨⟨⟨hc1, hc2⟩, hr3⟩, hrn⟩ := h
          obtain ⟨d, hd_eq, hdne, hd⟩ := matchDigits1_decomp _ _ h1
          obtain ⟨p, hp_eq, hp⟩ := matchOptPunct_decomp r1
          obtain ⟨w, hw_eq, hwne, hw⟩ := matchSpaces1_decomp _ _ h2
          refine ⟨(strip t).takeWhile isPySpace, d, p, w, c, r, ?_,
            fun x hx => List.mem_takeWhile_imp hx, hdne, hd, hp, hwne, hw,
            hc1, hc2, hr3, fun x hx => hrn x hx⟩
          conv_lhs => rw [← List.takeWhile_append_dropWhile (p := isPySpace) (l := strip t)]
          rw [hd_eq, hp_eq, hw_eq]
          simp [List.append_assoc]
  · rintro ⟨s0, d, p, w, c, r, heq, hs0, hdne, hd, hp, hwne, hw, hc1, hc2, hr3, hrn⟩
    obtain ⟨d0, d', rfl⟩ := List.exists_cons_of_ne_nil hdne
    obtain ⟨w0, w', rfl⟩ := List.exists_cons_of_ne_nil hwne
    have hw0 := hw w0 (by simp)
    have hS : (strip t).dropWhile isPySpace =
        (d0 :: d') ++ (p ++ ((w0 :: w') ++ c :: r)) := by
      rw [heq, show s0 ++ (d0 :: d') ++ p ++ (w0 :: w') ++ c :: r =
        s0 ++ ((d0 :: d') ++ (p ++ ((w0 :: w') ++ c :: r))) by simp [List.append_assoc]]
      rw [dropWhile_append_of_all s0 hs0]
      rw [List.cons_append]
      exact dropWhile_cons_of_neg d0 _ (isDigit_not_space d0 (hd d0 (by simp)))
    have hD : matchDigits1 ((d0 :: d') ++ (p ++ ((w0 :: w') ++ c :: r))) =
        some (p ++ ((w0 :: w') ++ c :: r)) := by
      refine matchDigits1_eval _ _ (by simp) hd ?_
      intro x hx
      rcases hp with rfl | rfl | rfl
      · simp only [List.nil_append, List.cons_append, List.head?_cons,
          Option.some.injEq] at hx
        rw [← hx]
        exact space_not_digit w0 hw0
      · simp only [List.cons_append, List.head?_cons, Option.some.injEq] at hx
        rw [← hx]
        decide
      · simp only [List.cons_append, List.head?_cons, Option.some.injEq] at hx
        rw [← hx]
        decide
    have hP : matchOptPunct (p ++ ((w0 :: w') ++ c :: r)) = (w0 :: w') ++ c :: r := by
      rcases hp with rfl | rfl | rfl
      · rw [List.nil_append, List.cons_append, matchOptPunct,
          if_neg (by simp [space_ne_dot w0 hw0, space_ne_paren w0 hw0])]
      · rw [List.cons_append, matchOptPunct]
        simp
      · rw [List.cons_append, matchOptPunct]
        simp
    have hW : matchSpaces1 ((w0 :: w') ++ c :: r) = some (c :: r) := by
      refine matchSpaces1_eval _ _ (by simp) hw ?_
      intro x hx
      simp only [List.head?_cons, Option.some.injEq] at hx
      rw [← hx]
      exact upper_not_space c hc1 hc2
    rw [is_section_heading, hS, hD]
    dsimp only
    rw [hP, hW]
    dsimp only
    simp only [Bool.and_eq_true, decide_eq_true_eq, List.all_eq_true, bne_iff_ne, ne_eq]
    exact ⟨⟨⟨hc1, hc2⟩, hr3⟩, fun x hx => hrn x hx⟩

end AefPolicy
